/-
Verification of the trace-collection orchestration layer
(`fetch_with_vpn.py` and `wireguard.py`) against its specification.

Python `collections.Counter` values are embedded as association lists
`List (String × Int)`; Python dicts never have duplicate keys, which is
carried as a `KeysNodup` hypothesis where it matters.
-/
import Mathlib

/-- A Python `collections.Counter` / dict with string keys and integer
counts, embedded as an association list in insertion order. -/
abbrev Ctr := List (String × Int)

namespace Ctr

/-- Lookup `c[k]` for a Counter: the first binding of `k`, or `0` when absent
(Python `Counter.__missing__` returns 0). -/
def get : Ctr → String → Int
  | [], _ => 0
  | p :: rest, k => if p.1 = k then p.2 else get rest k

/-- Membership `k in c` for the underlying dict. -/
def hasKey : Ctr → String → Bool
  | [], _ => false
  | p :: rest, k => p.1 == k || hasKey rest k

/-- The keys of every binding, in order. -/
def keys (c : Ctr) : List String := c.map Prod.fst

/-- The dict invariant: no duplicate keys. -/
def KeysNodup (c : Ctr) : Prop := (c.map Prod.fst).Nodup

/-- All stored counts are strictly positive. -/
def Pos (c : Ctr) : Prop := ∀ p ∈ c, 0 < p.2

/-- One step of Python `Counter.__or__`: `newcount = other_count if count <
other_count else count`, kept only when positive. -/
def unionEntry (d : Ctr) (p : String × Int) : Option (String × Int) :=
  let m := if p.2 < get d p.1 then get d p.1 else p.2
  if 0 < m then some (p.1, m) else none

/-- Python `Counter.__or__` (the `|=` in `batch`): for each key of `self`
keep `max(self[k], other[k])` when positive; then append the keys of
`other` that are absent from `self` and have a positive count. -/
def union (c d : Ctr) : Ctr :=
  c.filterMap (unionEntry d)
  ++ d.filter (fun p => !(hasKey c p.1) && decide (0 < p.2))

/-- Python unary `+counter`: keep only the positive counts. -/
def pos (c : Ctr) : Ctr := c.filter (fun p => decide (0 < p.2))


end Ctr


/-- Function `batch` from `fetch_with_vpn.py`: fold the per-peer remaining counters
with Counter union (pointwise max), drop non-positive counts, and divide
each surviving count by `n_batches`, rounding up.
`ceilDiv` below models `math.ceil(value / n_batches)` for the positive
values that reach it. -/
def ceilDiv (v : Int) (n : Nat) : Int := ((v.toNat + n - 1) / n : Nat)

def batch (remaining : List (String × Ctr)) (nBatches : Nat) : Ctr :=
  let counter : Ctr := remaining.foldl (fun acc p => Ctr.union acc p.2) []
  let counter := Ctr.pos counter
  counter.map (fun p => (p.1, ceilDiv p.2 nBatches))

/-- The maximum remaining count of category `k` across all peers
(taking an absent or negative count as contributing nothing). -/
def maxCount (remaining : List (String × Ctr)) (k : String) : Int :=
  remaining.foldl (fun a p => max a (Ctr.get p.2 k)) 0

/-! ## Wireguard configuration rendering (`wireguard.py`)

The Python classes hold a mutable client↔gateway back-reference
(`client.gateway` is set by `GatewayConfig.set_clients`).  The embedding
stores the gateway's client list; a client's render function receives the
gateway it is attached to (the dereference of `self.gateway`, asserted
non-`None` by the source). -/

def DEFAULT_ENDPOINT_PORT : Nat := 51888

structure ClientConfig where
  address : String
  privateKey : String
  publicKey : String
deriving DecidableEq

structure GatewayConfig where
  address : String
  endpoint : String
  privateKey : String
  publicKey : String
  clients : List ClientConfig
deriving DecidableEq

/-- Constructor `GatewayConfig.__init__`: the gateway address is fixed to `10.0.0.1`. -/
def mkGatewayConfig (endpoint privateKey publicKey : String)
    (clients : List ClientConfig) : GatewayConfig :=
  { address := "10.0.0.1", endpoint := endpoint, privateKey := privateKey,
    publicKey := publicKey, clients := clients }

/-- Method `GatewayConfig.set_clients`: clear the list and append the given clients
in order (also setting each client's back-reference to this gateway). -/
def GatewayConfig.set_clients (g : GatewayConfig) (cs : List ClientConfig) :
    GatewayConfig :=
  { g with clients := cs }

/-- The `[Interface]` part of `GatewayConfig.to_string`. -/
def GatewayConfig.interfaceLines (g : GatewayConfig) : List String :=
  ["[Interface]",
   "PrivateKey = " ++ g.privateKey,
   "Address = " ++ g.address ++ "/24",
   "ListenPort = 51888",
   "PostUp = iptables -t nat -A POSTROUTING -o eth0 -j MASQUERADE",
   "PostDown = iptables -t nat -D POSTROUTING -o eth0 -j MASQUERADE",
   ""]

/-- One `[Peer]` block appended per client by the loop in
`GatewayConfig.to_string`. -/
def peerLines (c : ClientConfig) : List String :=
  ["[Peer]",
   "PublicKey = " ++ c.publicKey,
   "AllowedIPs = " ++ c.address ++ "/32",
   ""]

/-- The `config_lines` list built by `GatewayConfig.to_string`. -/
def GatewayConfig.to_string_lines (g : GatewayConfig) : List String :=
  g.clients.foldl (fun acc c => acc ++ peerLines c) (GatewayConfig.interfaceLines g)

def GatewayConfig.to_string (g : GatewayConfig) : String :=
  String.intercalate "\n" (GatewayConfig.to_string_lines g)

/-- The `config_lines` list built by `ClientConfig.to_string`; `gw` is the
client's current gateway (`self.gateway`, asserted non-`None`). -/
def ClientConfig.to_string_lines (c : ClientConfig) (gw : GatewayConfig) :
    List String :=
  ["[Interface]",
   "PrivateKey = " ++ c.privateKey,
   "Address = " ++ c.address ++ "/32",
   "",
   "[Peer]",
   "PublicKey = " ++ gw.publicKey,
   "Endpoint = " ++ gw.endpoint ++ ":" ++ Nat.repr DEFAULT_ENDPOINT_PORT,
   "AllowedIPs = 0.0.0.0/0",
   ""]

def ClientConfig.to_string (c : ClientConfig) (gw : GatewayConfig) : String :=
  String.intercalate "\n" (ClientConfig.to_string_lines c gw)

/-! ## URL filtering and checkpoint recovery (`fetch_with_vpn.py`) -/

/-- Generator `_filter_urls`: keep a URL when `urlparse(url).port is None`, drop it
(with only a log warning) otherwise.  `port` abstracts the external
`urllib.parse` port extraction. -/
def filterUrls (port : String → Option Nat) : List String → List String
  | [] => []
  | u :: rest =>
    match port u with
    | none => u :: filterUrls port rest
    | some _ => filterUrls port rest

/-- One line of the checkpoint file: a decoded collection outcome. -/
structure Outcome where
  url : String
  version : String
  success : Bool
deriving DecidableEq

/-- The checkpoint-load branch of `BrowserPeer._recover_from_checkpoint`:
if the checkpoint file exists its lines are decoded in order, otherwise the
checkpoint is the empty sequence (no error is raised).  `decode` abstracts
the external `lab.fetch_websites.decode_result`, and the file is its list
of lines (or `none` when absent). -/
def loadCheckpoint (decode : String → Outcome) :
    Option (List String) → List Outcome
  | some lines => lines.map decode
  | none => []

/-- Modelled from the spec: `filter_by_checkpoint` of the external
`lab.fetch_websites` module (not part of this repository).  It folds the
loaded outcomes into per-item, per-category counts still needed, treating
an item/category as exhausted when its requested count is met or when its
trailing consecutive-failure count reaches `max_attempts`; categories with
no remaining need and items with empty plans are dropped. -/
def filter_by_checkpoint (urls : List String) (checkpoint : List Outcome)
    (versionCtr : Ctr) (maxAttempts : Nat) : List (String × Ctr) :=
  urls.filterMap (fun u =>
    let plan : Ctr := versionCtr.filterMap (fun p =>
      let outs := checkpoint.filter
        (fun o => o.url == u && o.version == p.1)
      let succ : Int := (outs.filter (fun o => o.success)).length
      let trailFail := (outs.reverse.takeWhile (fun o => !o.success)).length
      let rem := if maxAttempts ≤ trailFail then 0 else p.2 - succ
      if 0 < rem then some (p.1, rem) else none)
    if plan.isEmpty then none else some (u, plan))

/-! ## The agent's batched collection loop (`BrowserPeer.run`) -/

/-- One invocation of `BrowserPeer._collect_batch`: the URL list and the
batch counter passed to the external `docker-fetch-websites` process. -/
structure CollectCall where
  urls : List String
  ctr : Ctr
deriving DecidableEq

/-- The observable effects of one `BrowserPeer.run` call. -/
structure RunResult where
  configPushed : Bool
  collects : List CollectCall
  checkpoint : List Outcome
  result : String
deriving DecidableEq

/-- The `for _ in range(self.n_batches)` loop of `BrowserPeer.run`: every
round calls `_collect_batch(urls, batch_ctr)` with the same arguments; the
external process appends that round's outcomes (given by `oracle`) to the
checkpoint file. -/
def runBatches (rurls : List String) (batchCtr : Ctr)
    (oracle : Nat → List Outcome) :
    List Nat → List Outcome → List CollectCall × List Outcome
  | [], cp => ([], cp)
  | r :: rest, cp =>
    let cp1 := cp ++ oracle r
    let acc := runBatches rurls batchCtr oracle rest cp1
    ({ urls := rurls, ctr := batchCtr } :: acc.1, acc.2)

/-- Method `BrowserPeer.run`: recover the remaining work from the checkpoint,
compute the batch counter once, return immediately when it is empty, and
otherwise push the VPN config and run `n_batches` identical rounds. -/
def BrowserPeer.run (port : String → Option Nat) (inputUrls : List String)
    (versionCtr : Ctr) (maxAttempts nBatches : Nat) (checkpointPath : String)
    (checkpoint0 : List Outcome) (oracle : Nat → List Outcome) : RunResult :=
  let urls := filterUrls port inputUrls
  let remaining := filter_by_checkpoint urls checkpoint0 versionCtr maxAttempts
  let batchCtr := batch remaining nBatches
  if batchCtr.isEmpty then
    { configPushed := false, collects := [], checkpoint := checkpoint0,
      result := checkpointPath }
  else
    let rurls := remaining.map Prod.fst
    let folded := runBatches rurls batchCtr oracle (List.range nBatches) checkpoint0
    { configPushed := true, collects := folded.1, checkpoint := folded.2,
      result := checkpointPath }

/-- The per-round batch requests as claim C2 describes them: Remaining is
recomputed from the checkpoint store after every round (folding in the
outcomes appended during the round) and the next round's request is derived
from the freshly recomputed Remaining. -/
def roundRequestsRecomputed (urls : List String) (versionCtr : Ctr)
    (maxAttempts nBatches : Nat) (oracle : Nat → List Outcome) :
    List Nat → List Outcome → List Ctr
  | [], _ => []
  | r :: rest, cp =>
    let remaining := filter_by_checkpoint urls cp versionCtr maxAttempts
    let req := batch remaining nBatches
    req :: roundRequestsRecomputed urls versionCtr maxAttempts nBatches oracle
      rest (cp ++ oracle r)

/-! ## The VPN gateway lifecycle (`WireguardGateway`) -/

/-- A docker-level command issued through the gateway's `SSHNode`. -/
inductive DockerCall where
  | start (conf : String)
  | inspect (cid : String)
  | stop (cid : String)
  | rm (cid : String)
deriving DecidableEq

/-- State of a `WireguardGateway`: only the container handle matters for the lifecycle
claims; the second component of each operation is the list of docker
commands it issues. -/
structure WireguardGateway where
  containerId : Option String
deriving DecidableEq

/-- Method `WireguardGateway.start` (the successful path): launch the gateway
container and health-check it, recording the new container id. -/
def WireguardGateway.start (_g : WireguardGateway) (newCid : String) :
    WireguardGateway × List DockerCall :=
  (⟨some newCid⟩, [DockerCall.start newCid, DockerCall.inspect newCid])

/-- Method `WireguardGateway.stop`: stop the VPN server if it is running. -/
def WireguardGateway.stop (g : WireguardGateway) :
    WireguardGateway × List DockerCall :=
  match g.containerId with
  | some cid => (⟨none⟩, [DockerCall.stop cid, DockerCall.rm cid])
  | none => (g, [])

/-- How the scoped body of `async with self.gateway:` finishes. -/
inductive BodyOutcome (A : Type) where
  | ok (a : A)
  | error
  | cancelled
deriving DecidableEq

/-- Python's `async with` over the gateway: `__aenter__` runs `start`,
the body produces its outcome, and `__aexit__` runs `stop` on every exit
path (normal return, raised error, or cancellation) before the outcome
propagates. -/
def withGateway {A : Type} (g : WireguardGateway) (newCid : String)
    (body : BodyOutcome A) :
    BodyOutcome A × WireguardGateway × List DockerCall :=
  let started := WireguardGateway.start g newCid
  let stopped := WireguardGateway.stop started.1
  (body, stopped.1, started.2 ++ stopped.2)

def isStopCall : DockerCall → Bool
  | DockerCall.stop _ => true
  | _ => false

/-! ## The coordinator's fan-out (`TraceCollectionExperiment.run`)

Cooperative scheduling is modelled by giving every agent task the outcome
`run()` would produce if awaited to completion and the (logical) time at
which it finishes.  `asyncio.gather` surfaces the earliest-finishing
exception; tasks that have not finished by then are in flight and get
cancelled by `gathered_tasks.cancel()`. -/

structure AgentSpec (E P : Type) where
  outcome : Except E P
  finish : Nat

inductive TaskFinal (E P : Type) where
  | ok (p : P)
  | failed (e : E)
  | cancelled

/-- The earliest failure among the agent tasks: its finish time and its
exception (ties broken by task order, as `asyncio` wakes tasks in order). -/
def earliestFailure {E P : Type} : List (AgentSpec E P) → Option (Nat × E)
  | [] => none
  | a :: rest =>
    let r := earliestFailure rest
    match a.outcome with
    | Except.error e =>
      match r with
      | some (tf, e2) => if tf < a.finish then some (tf, e2) else some (a.finish, e)
      | none => some (a.finish, e)
    | Except.ok _ => r

/-- The values of an all-successful task list. -/
def okValues {E P : Type} (agents : List (AgentSpec E P)) : List P :=
  agents.filterMap (fun a =>
    match a.outcome with
    | Except.ok p => some p
    | Except.error _ => none)

/-- The final state of each task when the first failure happened at `tf`:
tasks already finished keep their outcome, in-flight tasks are cancelled. -/
def finalsAt {E P : Type} (tf : Nat) (agents : List (AgentSpec E P)) :
    List (TaskFinal E P) :=
  agents.map (fun a =>
    if a.finish ≤ tf then
      match a.outcome with
      | Except.ok p => TaskFinal.ok p
      | Except.error e => TaskFinal.failed e
    else TaskFinal.cancelled)

/-- The observable behaviour of `TraceCollectionExperiment.run`. -/
structure ExperimentResult (E P : Type) where
  result : Except E (List P)
  finals : List (TaskFinal E P)
  gateway : WireguardGateway
  calls : List DockerCall

/-- Method `TraceCollectionExperiment.run`: under the gateway's scope, gather all
agent tasks; on the first failure cancel the still-running tasks, await
them all collecting (not re-raising) their outcomes, and re-raise the
original exception; the gateway's `stop` runs on both paths via
`__aexit__`. -/
def TraceCollectionExperiment.run {E P : Type} (g : WireguardGateway)
    (newCid : String) (agents : List (AgentSpec E P)) : ExperimentResult E P :=
  let started := WireguardGateway.start g newCid
  match earliestFailure agents with
  | some (tf, e) =>
    let finals := finalsAt tf agents
    let stopped := WireguardGateway.stop started.1
    { result := Except.error e, finals := finals,
      gateway := stopped.1, calls := started.2 ++ stopped.2 }
  | none =>
    let finals := agents.map (fun a =>
      match a.outcome with
      | Except.ok p => TaskFinal.ok p
      | Except.error e => TaskFinal.failed e)
    let stopped := WireguardGateway.stop started.1
    { result := Except.ok (okValues agents), finals := finals,
      gateway := stopped.1, calls := started.2 ++ stopped.2 }

/-! ## Work partitioning (`TraceCollectionExperiment.__init__`) -/

/-- Python list slicing `xs[::k]` restricted to a positive step: take the
head, then skip `k - 1` elements, and repeat. -/
def everyKth {A : Type} (k : Nat) : List A → List A
  | [] => []
  | x :: xs => x :: everyKth k (xs.drop (k - 1))
termination_by l => l.length
decreasing_by
  simp only [List.length_drop, List.length_cons]
  omega

/-- Python list slicing `urls[i::k]`. -/
def sliceStep {A : Type} (l : List A) (i k : Nat) : List A :=
  everyKth k (l.drop i)

/-- The decimal value of a digit-character list, a left inverse used to
show `Nat.repr` injective (agent addresses are pairwise distinct). -/
def digitVal (c : Char) : Nat := c.toNat - 48

def digitsVal (l : List Char) : Nat := l.foldl (fun a c => a * 10 + digitVal c) 0

/-- The state of one `BrowserPeer` as built by
`TraceCollectionExperiment.__init__`: its fresh client address
`10.0.0.{i+2}`, its round-robin URL shard `urls[i::len(client_nodes)]`,
and its node. -/
structure BrowserPeerInit where
  address : String
  urls : List String
  node : String
deriving DecidableEq

/-- The client list built by `TraceCollectionExperiment.__init__`. -/
def mkClients (urls : List String) (clientNodes : List String) :
    List BrowserPeerInit :=
  clientNodes.enum.map (fun p =>
    { address := "10.0.0." ++ Nat.repr (p.1 + 2),
      urls := sliceStep urls p.1 clientNodes.length,
      node := p.2 })

/-! ## Concrete data reused by witnesses -/

/-- The per-domain remaining counters from the repository's own
`test_batch`. -/
def exRemaining : List (String × Ctr) :=
  [("a.com", [("Q043", 40), ("Q046", 10), ("tcp", 100)]),
   ("b.com", [("Q043", 30), ("Q046", 40), ("tcp", 110)]),
   ("c.com", [("Q043", 20), ("Q046", 30), ("tcp", 90)])]

/-- A one-URL collection with two requested repetitions of version `A`. -/
def exVersionCtr : Ctr := [("A", 2)]

/-- An oracle for the external collector: round 0 appends two successful
outcomes for `("u", "A")`, later rounds append nothing. -/
def exOracle : Nat → List Outcome := fun r =>
  if r = 0 then
    [{ url := "u", version := "A", success := true },
     { url := "u", version := "A", success := true }]
  else []

instance (c : Ctr) : Decidable (Ctr.KeysNodup c) :=
  inferInstanceAs (Decidable ((c.map Prod.fst).Nodup))

instance (c : Ctr) : Decidable (Ctr.Pos c) :=
  inferInstanceAs (Decidable (∀ p ∈ c, 0 < p.2))

/-! ## Theorems -/

namespace Ctr

theorem get_eq_zero_of_not_hasKey {c : Ctr} {k : String} (h : hasKey c k = false) :
    get c k = 0 := by
  induction c with
  | nil => rfl
  | cons p rest ih =>
    simp only [hasKey, Bool.or_eq_false_iff, beq_eq_false_iff_ne] at h
    simp only [get, if_neg h.1, ih h.2]

theorem get_pos_of_hasKey {c : Ctr} {k : String} (hp : Pos c) (h : hasKey c k = true) :
    0 < get c k := by
  induction c with
  | nil => simp [hasKey] at h
  | cons p rest ih =>
    simp only [hasKey, Bool.or_eq_true, beq_iff_eq] at h
    by_cases he : p.1 = k
    · simpa only [get, if_pos he] using hp p (List.mem_cons_self p rest)
    · have hr : hasKey rest k = true := by
        rcases h with h | h
        · exact absurd h he
        · exact h
      have : 0 < get rest k := ih (fun q hq => hp q (List.mem_cons_of_mem p hq)) hr
      simpa only [get, if_neg he] using this

theorem get_append (c d : Ctr) (k : String) :
    get (c ++ d) k = if hasKey c k then get c k else get d k := by
  induction c with
  | nil => simp [get, hasKey]
  | cons p rest ih =>
    by_cases he : p.1 = k
    · have hb : (p.1 == k) = true := beq_iff_eq.mpr he
      show get (p :: (rest ++ d)) k = _
      simp [get, hasKey, he, hb]
    · have hne : (p.1 == k) = false := beq_eq_false_iff_ne.mpr he
      show get (p :: (rest ++ d)) k = _
      simp only [get, if_neg he, hasKey, hne, Bool.false_or, ih]

theorem hasKey_append (c d : Ctr) (k : String) :
    hasKey (c ++ d) k = (hasKey c k || hasKey d k) := by
  induction c with
  | nil => simp [hasKey]
  | cons p rest ih =>
    show hasKey (p :: (rest ++ d)) k = _
    simp only [hasKey, ih, Bool.or_assoc]

theorem hasKey_iff_mem_keys {c : Ctr} {k : String} :
    hasKey c k = true ↔ k ∈ keys c := by
  induction c with
  | nil => simp [hasKey, keys]
  | cons p rest ih =>
    simp only [hasKey, Bool.or_eq_true, beq_iff_eq, keys, List.map_cons, List.mem_cons]
    rw [ih]
    constructor
    · rintro (h | h)
      · exact Or.inl h.symm
      · exact Or.inr h
    · rintro (h | h)
      · exact Or.inl h.symm
      · exact Or.inr h

theorem get_nonneg_of_pos {c : Ctr} (hp : Pos c) (k : String) : 0 ≤ get c k := by
  cases h : hasKey c k with
  | true => exact (get_pos_of_hasKey hp h).le
  | false => rw [get_eq_zero_of_not_hasKey h]

/-- The Python `max`-style conditional used in `Counter.__or__`. -/
theorem cond_max (a b : Int) : (if a < b then b else a) = max a b := by
  rcases lt_or_ge a b with h | h
  · rw [if_pos h, max_eq_right h.le]
  · rw [if_neg (not_lt.mpr h), max_eq_left h]

theorem filterMap_unionEntry_of_pos {c : Ctr} (d : Ctr) (hc : Pos c) :
    c.filterMap (unionEntry d) = c.map (fun p => (p.1, max p.2 (get d p.1))) := by
  induction c with
  | nil => rfl
  | cons p rest ih =>
    have hp : 0 < p.2 := hc p (List.mem_cons_self p rest)
    have hm : 0 < max p.2 (get d p.1) := lt_of_lt_of_le hp (le_max_left _ _)
    have he : unionEntry d p = some (p.1, max p.2 (get d p.1)) := by
      simp only [unionEntry, cond_max, if_pos hm]
    rw [List.filterMap_cons, he, List.map_cons,
      ih (fun q hq => hc q (List.mem_cons_of_mem p hq))]

theorem get_map_pair (c : Ctr) (f : String → Int → Int) (k : String) :
    get (c.map (fun p => (p.1, f p.1 p.2))) k =
      if hasKey c k then f k (get c k) else 0 := by
  induction c with
  | nil => simp [get, hasKey]
  | cons p rest ih =>
    by_cases he : p.1 = k
    · have hb : (p.1 == k) = true := beq_iff_eq.mpr he
      simp only [List.map_cons, get, if_pos he, hasKey, hb, Bool.true_or, if_pos, he]
      simp
    · have hb : (p.1 == k) = false := beq_eq_false_iff_ne.mpr he
      simp only [List.map_cons, get, if_neg he, hasKey, hb, Bool.false_or, ih]

theorem hasKey_map_pair (c : Ctr) (f : String → Int → Int) (k : String) :
    hasKey (c.map (fun p => (p.1, f p.1 p.2))) k = hasKey c k := by
  induction c with
  | nil => rfl
  | cons p rest ih => simp only [List.map_cons, hasKey, ih]

theorem get_filter_second {c : Ctr} (d : Ctr) (k : String) (hd : KeysNodup d)
    (hk : hasKey c k = false) :
    get (d.filter (fun p => !(hasKey c p.1) && decide (0 < p.2))) k =
      max (get d k) 0 := by
  induction d with
  | nil => simp [get, List.filter_nil]
  | cons p rest ih =>
    have hnd : KeysNodup rest ∧ p.1 ∉ keys rest := by
      have := hd
      simp only [KeysNodup, List.map_cons, List.nodup_cons] at this
      exact ⟨this.2, this.1⟩
    by_cases he : p.1 = k
    · have hrest : hasKey rest k = false := by
        cases h : hasKey rest k with
        | false => rfl
        | true => exact absurd (he ▸ hasKey_iff_mem_keys.mp h) hnd.2
      have hfrest : ∀ q, get (rest.filter q) k = 0 := by
        intro q
        cases h : hasKey (rest.filter q) k with
        | false => exact get_eq_zero_of_not_hasKey h
        | true =>
          exfalso
          have := hasKey_iff_mem_keys.mp h
          simp only [keys, List.mem_map] at this
          obtain ⟨a, ha, hak⟩ := this
          have : hasKey rest k = true := by
            refine hasKey_iff_mem_keys.mpr ?_
            exact hak ▸ List.mem_map_of_mem Prod.fst (List.mem_of_mem_filter ha)
          rw [this] at hrest
          exact Bool.true_eq_false.mp hrest
      have hq : (!(hasKey c p.1) && decide (0 < p.2)) = decide (0 < p.2) := by
        rw [he, hk]
        simp
      by_cases hpv : 0 < p.2
      · have hkp : (!(hasKey c p.1) && decide (0 < p.2)) = true := by
          rw [hq]; exact decide_eq_true hpv
        have hfc : List.filter (fun q => !(hasKey c q.1) && decide (0 < q.2)) (p :: rest)
            = p :: List.filter (fun q => !(hasKey c q.1) && decide (0 < q.2)) rest :=
          List.filter_cons_of_pos hkp
        rw [hfc, get, if_pos he, get, if_pos he, max_eq_left hpv.le]
      · have hkp : ¬((!(hasKey c p.1) && decide (0 < p.2)) = true) := by
          rw [hq]; simpa using hpv
        have hfc : List.filter (fun q => !(hasKey c q.1) && decide (0 < q.2)) (p :: rest)
            = List.filter (fun q => !(hasKey c q.1) && decide (0 < q.2)) rest :=
          List.filter_cons_of_neg hkp
        rw [hfc, hfrest, get, if_pos he, max_eq_right (not_lt.mp hpv)]
    · have step : get (p :: rest) k = get rest k := by rw [get, if_neg he]
      rw [step]
      by_cases hkeep : (!(hasKey c p.1) && decide (0 < p.2)) = true
      · have hfc : List.filter (fun q => !(hasKey c q.1) && decide (0 < q.2)) (p :: rest)
            = p :: List.filter (fun q => !(hasKey c q.1) && decide (0 < q.2)) rest :=
          List.filter_cons_of_pos hkeep
        rw [hfc, get, if_neg he, ih hnd.1]
      · have hfc : List.filter (fun q => !(hasKey c q.1) && decide (0 < q.2)) (p :: rest)
            = List.filter (fun q => !(hasKey c q.1) && decide (0 < q.2)) rest :=
          List.filter_cons_of_neg hkeep
        rw [hfc, ih hnd.1]

theorem union_pos (c d : Ctr) : Pos (union c d) := by
  intro p hp
  rw [union, List.mem_append] at hp
  rcases hp with hp | hp
  · rw [List.mem_filterMap] at hp
    obtain ⟨a, _, ha⟩ := hp
    rw [unionEntry] at ha
    by_cases hm : 0 < (if a.2 < get d a.1 then get d a.1 else a.2)
    · rw [if_pos hm] at ha
      cases ha
      exact hm
    · rw [if_neg hm] at ha
      cases ha
  · rw [List.mem_filter] at hp
    have := hp.2
    simp only [Bool.and_eq_true, decide_eq_true_eq] at this
    exact this.2

/-- Union `Counter.__or__` computes the pointwise max, clipped at zero for keys
taken from the right operand. -/
theorem union_get {c : Ctr} (d : Ctr) (hc : Pos c) (hd : KeysNodup d) (k : String) :
    get (union c d) k = max (get c k) (max (get d k) 0) := by
  rw [union, get_append, filterMap_unionEntry_of_pos d hc]
  have hkeys : hasKey (c.map (fun p => (p.1, max p.2 (get d p.1)))) k = hasKey c k :=
    hasKey_map_pair c (fun a v => max v (get d a)) k
  rw [hkeys]
  cases hck : hasKey c k with
  | true =>
    rw [if_pos rfl]
    have hmap := get_map_pair c (fun a v => max v (get d a)) k
    rw [hck, if_pos rfl] at hmap
    rw [hmap]
    have hpos : 0 < get c k := get_pos_of_hasKey hc hck
    rcases le_total (get d k) 0 with h | h
    · rw [max_eq_right h, max_eq_left hpos.le, max_eq_left (h.trans hpos.le)]
    · rw [max_eq_left h]
  | false =>
    rw [if_neg (by simp), get_eq_zero_of_not_hasKey hck,
      get_filter_second d k hd hck]
    have : (0 : Int) ≤ max (get d k) 0 := le_max_right _ _
    rw [max_eq_right this]

end Ctr

theorem pos_nil : Ctr.Pos [] := by
  intro p hp
  exact absurd hp (List.not_mem_nil p)

theorem foldl_union_pos (remaining : List (String × Ctr)) (acc : Ctr)
    (hacc : Ctr.Pos acc) :
    Ctr.Pos (remaining.foldl (fun a p => Ctr.union a p.2) acc) := by
  induction remaining generalizing acc with
  | nil => exact hacc
  | cons d rest ih => exact ih (Ctr.union acc d.2) (Ctr.union_pos acc d.2)

theorem max_shift {a b : Int} (ha : 0 ≤ a) :
    max (max a (max b 0)) 0 = max (max a 0) b := by
  rcases le_total b 0 with h | h
  · rw [max_eq_right h, max_eq_left ha, max_eq_left ha,
      max_eq_left (h.trans ha)]
  · rw [max_eq_left h, max_eq_left ha,
      max_eq_left (h.trans (le_max_right a b))]

theorem foldl_union_get (remaining : List (String × Ctr)) (acc : Ctr)
    (hacc : Ctr.Pos acc) (hwf : ∀ p ∈ remaining, Ctr.KeysNodup p.2) (k : String) :
    Ctr.get (remaining.foldl (fun a p => Ctr.union a p.2) acc) k
      = remaining.foldl (fun a p => max a (Ctr.get p.2 k))
          (max (Ctr.get acc k) 0) := by
  induction remaining generalizing acc with
  | nil =>
    simp only [List.foldl_nil]
    exact (max_eq_left (Ctr.get_nonneg_of_pos hacc k)).symm
  | cons d rest ih =>
    rw [List.foldl_cons, List.foldl_cons,
      ih (Ctr.union acc d.2) (Ctr.union_pos acc d.2)
        (fun p hp => hwf p (List.mem_cons_of_mem d hp)),
      Ctr.union_get d.2 hacc (hwf d (List.mem_cons_self d rest)) k,
      max_shift (Ctr.get_nonneg_of_pos hacc k)]

theorem get_foldl_union_eq_maxCount (remaining : List (String × Ctr))
    (hwf : ∀ p ∈ remaining, Ctr.KeysNodup p.2) (k : String) :
    Ctr.get (remaining.foldl (fun a p => Ctr.union a p.2) []) k
      = maxCount remaining k := by
  have h := foldl_union_get remaining [] pos_nil hwf k
  simpa [maxCount, Ctr.get] using h

theorem foldl_union_allzero (remaining : List (String × Ctr))
    (hz : ∀ p ∈ remaining, ∀ q ∈ p.2, q.2 = 0) :
    remaining.foldl (fun a p => Ctr.union a p.2) [] = [] := by
  induction remaining with
  | nil => rfl
  | cons d rest ih =>
    have hu : Ctr.union [] d.2 = [] := by
      rw [Ctr.union]
      have hf : List.filter
          (fun p => !(Ctr.hasKey [] p.1) && decide (0 < p.2)) d.2 = [] := by
        apply List.filter_eq_nil_iff.mpr
        intro a ha
        have hz0 : a.2 = 0 := hz d (List.mem_cons_self d rest) a ha
        simp [hz0]
      rw [List.filterMap_nil, hf]
      rfl
    rw [List.foldl_cons, hu]
    exact ih (fun p hp => hz p (List.mem_cons_of_mem d hp))

theorem ceil_bounds (m n : Nat) (hm : 0 < m) (hn : 0 < n) :
    0 < (m + n - 1) / n ∧ m ≤ n * ((m + n - 1) / n) ∧
      n * ((m + n - 1) / n - 1) < m := by
  refine ⟨(Nat.one_le_div_iff hn).mpr (by omega), ?_, ?_⟩
  · have h1 := Nat.div_add_mod (m + n - 1) n
    have h2 : (m + n - 1) % n < n := Nat.mod_lt _ hn
    generalize hq : (m + n - 1) / n = q at h1 ⊢
    generalize hr : (m + n - 1) % n = r at h1 h2
    generalize hX : n * q = X at h1 ⊢
    omega
  · have h1 := Nat.div_add_mod (m + n - 1) n
    have h2 : (m + n - 1) % n < n := Nat.mod_lt _ hn
    generalize hq : (m + n - 1) / n = q at h1 ⊢
    generalize hr : (m + n - 1) % n = r at h1 h2
    rcases q with _ | t
    · simpa using hm
    · have hms : n * (t + 1) = n * t + n := Nat.mul_succ n t
      rw [hms] at h1
      have hsub : t + 1 - 1 = t := rfl
      rw [hsub]
      generalize hX : n * t = X at h1 ⊢
      omega

theorem ceilDiv_pos {v : Int} {n : Nat} (hv : 0 < v) (hn : 0 < n) :
    0 < ceilDiv v n := by
  have hm : 0 < v.toNat := by omega
  have h := (ceil_bounds v.toNat n hm hn).1
  rw [ceilDiv]
  exact_mod_cast h

theorem ceilDiv_le {v : Int} {n : Nat} (hv : 0 < v) (hn : 0 < n) :
    v ≤ (n : Int) * ceilDiv v n := by
  have hm : 0 < v.toNat := by omega
  obtain ⟨hq1, hq2, hq3⟩ := ceil_bounds v.toNat n hm hn
  rw [ceilDiv]
  generalize hq : (v.toNat + n - 1) / n = q at hq1 hq2 hq3 ⊢
  have hX : (n : Int) * ((q : Nat) : Int) = ((n * q : Nat) : Int) := by
    push_cast
    ring
  rw [hX]
  generalize hY : n * q = Y at hq2 ⊢
  omega

theorem ceilDiv_lt {v : Int} {n : Nat} (hv : 0 < v) (hn : 0 < n) :
    (n : Int) * (ceilDiv v n - 1) < v := by
  have hm : 0 < v.toNat := by omega
  obtain ⟨hq1, hq2, hq3⟩ := ceil_bounds v.toNat n hm hn
  rw [ceilDiv]
  generalize hq : (v.toNat + n - 1) / n = q at hq1 hq2 hq3 ⊢
  have hS : ((q : Nat) : Int) - 1 = ((q - 1 : Nat) : Int) := by omega
  rw [hS]
  have hX : (n : Int) * ((q - 1 : Nat) : Int) = ((n * (q - 1) : Nat) : Int) := by
    push_cast
    ring
  rw [hX]
  generalize hY : n * (q - 1) = Y at hq3 ⊢
  omega

/-- C1: for every mapping from peer identifier to per-category remaining
counts (each a well-formed dict) and every batch count `n ≥ 1`, `batch`
returns a plan whose values are all strictly positive, in which every
category whose maximum count across all peers is positive is present with
exactly `ceil(max_over_peers / n)` (characterised by the two ceiling
bounds), in which a category that is non-positive for every peer (or
absent everywhere) does not appear, and an all-zero input yields the empty
plan. -/
theorem batch_plan_spec (remaining : List (String × Ctr)) (n : Nat)
    (hn : 1 ≤ n) (hwf : ∀ p ∈ remaining, Ctr.KeysNodup p.2) :
    (∀ p ∈ batch remaining n, 0 < p.2) ∧
    (∀ k, 0 < maxCount remaining k →
      Ctr.hasKey (batch remaining n) k = true ∧
      maxCount remaining k ≤ (n : Int) * Ctr.get (batch remaining n) k ∧
      (n : Int) * (Ctr.get (batch remaining n) k - 1) < maxCount remaining k) ∧
    (∀ k, maxCount remaining k ≤ 0 → Ctr.hasKey (batch remaining n) k = false) ∧
    ((∀ p ∈ remaining, ∀ q ∈ p.2, q.2 = 0) → batch remaining n = []) := by
  have hFpos : Ctr.Pos (remaining.foldl (fun a p => Ctr.union a p.2) []) :=
    foldl_union_pos remaining [] pos_nil
  have hFget : ∀ k, Ctr.get (remaining.foldl (fun a p => Ctr.union a p.2) []) k
      = maxCount remaining k := get_foldl_union_eq_maxCount remaining hwf
  have hposid : Ctr.pos (remaining.foldl (fun a p => Ctr.union a p.2) [])
      = remaining.foldl (fun a p => Ctr.union a p.2) [] := by
    rw [Ctr.pos]
    apply List.filter_eq_self.mpr
    intro a ha
    exact decide_eq_true (hFpos a ha)
  have hbatch : batch remaining n
      = (remaining.foldl (fun a p => Ctr.union a p.2) []).map
          (fun p => (p.1, ceilDiv p.2 n)) := by
    rw [batch]
    rw [hposid]
  have hget : ∀ k, Ctr.get (batch remaining n) k
      = if Ctr.hasKey (remaining.foldl (fun a p => Ctr.union a p.2) []) k
        then ceilDiv (Ctr.get (remaining.foldl (fun a p => Ctr.union a p.2) []) k) n
        else 0 := by
    intro k
    rw [hbatch]
    exact Ctr.get_map_pair _ (fun _ v => ceilDiv v n) k
  have hhk : ∀ k, Ctr.hasKey (batch remaining n) k
      = Ctr.hasKey (remaining.foldl (fun a p => Ctr.union a p.2) []) k := by
    intro k
    rw [hbatch]
    exact Ctr.hasKey_map_pair _ (fun _ v => ceilDiv v n) k
  refine ⟨?_, ?_, ?_, ?_⟩
  · intro p hp
    rw [hbatch] at hp
    rw [List.mem_map] at hp
    obtain ⟨q, hq, hpq⟩ := hp
    have hqpos : 0 < q.2 := hFpos q hq
    have : p.2 = ceilDiv q.2 n := by rw [← hpq]
    rw [this]
    exact ceilDiv_pos hqpos hn
  · intro k hk
    have hFk : 0 < Ctr.get (remaining.foldl (fun a p => Ctr.union a p.2) []) k := by
      rw [hFget k]
      exact hk
    have hhas : Ctr.hasKey (remaining.foldl (fun a p => Ctr.union a p.2) []) k
        = true := by
      cases h : Ctr.hasKey (remaining.foldl (fun a p => Ctr.union a p.2) []) k with
      | true => rfl
      | false =>
        rw [Ctr.get_eq_zero_of_not_hasKey h] at hFk
        exact absurd hFk (by omega)
    have hgk : Ctr.get (batch remaining n) k
        = ceilDiv (maxCount remaining k) n := by
      rw [hget k, hhas, if_pos rfl, hFget k]
    refine ⟨by rw [hhk k]; exact hhas, ?_, ?_⟩
    · rw [hgk]
      exact ceilDiv_le hk hn
    · rw [hgk]
      exact ceilDiv_lt hk hn
  · intro k hk
    cases h : Ctr.hasKey (remaining.foldl (fun a p => Ctr.union a p.2) []) k with
    | false => rw [hhk k]; exact h
    | true =>
      have := Ctr.get_pos_of_hasKey hFpos h
      rw [hFget k] at this
      exact absurd this (by omega)
  · intro hz
    rw [hbatch, foldl_union_allzero remaining hz]
    rfl

/-- C1 witness: `batch` at the repository's own `test_batch` input with
`n_batches = 4`; `tcp` has maximum 110 across the peers and the returned
batch size 28 satisfies the ceiling bounds. -/
theorem batch_plan_spec_witness :
    0 < maxCount exRemaining "tcp" ∧
    Ctr.hasKey (batch exRemaining 4) "tcp" = true ∧
    maxCount exRemaining "tcp" ≤ (4 : Int) * Ctr.get (batch exRemaining 4) "tcp" ∧
    Ctr.get (batch exRemaining 4) "tcp" = 28 := by
  have h := batch_plan_spec exRemaining 4 (by decide) (by decide)
  have h2 := h.2.1 "tcp" (by decide)
  exact ⟨by decide, h2.1, h2.2.1, by decide⟩

theorem str_ne_of_lt_len {s t : String} (h : t.length < s.length) : s ≠ t := by
  intro he
  have h1 := congrArg String.length he
  omega

theorem len_le_append_left (a b : String) : a.length ≤ (a ++ b).length := by
  rw [String.length_append]
  omega

theorem append2_ne (a b t : String) (h : t.length < a.length) : a ++ b ≠ t :=
  str_ne_of_lt_len (lt_of_lt_of_le h (len_le_append_left a b))

theorem append3_ne (a b c t : String) (h : t.length < a.length) :
    a ++ b ++ c ≠ t :=
  str_ne_of_lt_len (lt_of_lt_of_le h
    ((len_le_append_left a b).trans (len_le_append_left (a ++ b) c)))

theorem append3_ne_sum (a b c t : String) (h : t.length < a.length + c.length) :
    a ++ b ++ c ≠ t := by
  intro he
  have h1 := congrArg String.length he
  rw [String.length_append, String.length_append] at h1
  omega

theorem append4_ne (a b c d t : String) (h : t.length < a.length) :
    a ++ b ++ c ++ d ≠ t :=
  str_ne_of_lt_len (lt_of_lt_of_le h
    (((len_le_append_left a b).trans (len_le_append_left (a ++ b) c)).trans
      (len_le_append_left (a ++ b ++ c) d)))

theorem gateway_lines_foldl (cs : List ClientConfig) (init : List String) :
    cs.foldl (fun acc c => acc ++ peerLines c) init = init ++ cs.flatMap peerLines := by
  induction cs generalizing init with
  | nil => simp
  | cons c rest ih =>
    rw [List.foldl_cons, ih, List.flatMap_cons, List.append_assoc]

theorem count_peer_peerLines (c : ClientConfig) :
    (peerLines c).count "[Peer]" = 1 := by
  have h1 : ("PublicKey = " ++ c.publicKey) ≠ "[Peer]" :=
    append2_ne _ _ _ (by decide)
  have h2 : ("AllowedIPs = " ++ c.address ++ "/32") ≠ "[Peer]" :=
    append3_ne _ _ _ _ (by decide)
  simp [peerLines, List.count_cons, h1, h2]

theorem count_peer_bind (cs : List ClientConfig) :
    (cs.flatMap peerLines).count "[Peer]" = cs.length := by
  induction cs with
  | nil => rfl
  | cons c rest ih =>
    rw [List.flatMap_cons, List.count_append, ih, count_peer_peerLines,
      List.length_cons]
    omega

theorem count_iface_peerLines (c : ClientConfig) :
    (peerLines c).count "[Interface]" = 0 := by
  have h1 : ("PublicKey = " ++ c.publicKey) ≠ "[Interface]" :=
    append2_ne _ _ _ (by decide)
  have h2 : ("AllowedIPs = " ++ c.address ++ "/32") ≠ "[Interface]" :=
    append3_ne _ _ _ _ (by decide)
  simp [peerLines, List.count_cons, h1, h2]

theorem count_iface_bind (cs : List ClientConfig) :
    (cs.flatMap peerLines).count "[Interface]" = 0 := by
  induction cs with
  | nil => rfl
  | cons c rest ih =>
    rw [List.flatMap_cons, List.count_append, ih, count_iface_peerLines]

theorem count_peer_interfaceLines (g : GatewayConfig) :
    (GatewayConfig.interfaceLines g).count "[Peer]" = 0 := by
  have h1 : ("PrivateKey = " ++ g.privateKey) ≠ "[Peer]" :=
    append2_ne _ _ _ (by decide)
  have h2 : ("Address = " ++ g.address ++ "/24") ≠ "[Peer]" :=
    append3_ne _ _ _ _ (by decide)
  simp [GatewayConfig.interfaceLines, List.count_cons, h1, h2]

theorem count_iface_interfaceLines (g : GatewayConfig) :
    (GatewayConfig.interfaceLines g).count "[Interface]" = 1 := by
  have h1 : ("PrivateKey = " ++ g.privateKey) ≠ "[Interface]" :=
    append2_ne _ _ _ (by decide)
  have h2 : ("Address = " ++ g.address ++ "/24") ≠ "[Interface]" :=
    append3_ne_sum _ _ _ _ (by decide)
  simp [GatewayConfig.interfaceLines, List.count_cons, h1, h2]

theorem bind_peerLines_get (cs : List ClientConfig) (i : Nat) (c : ClientConfig)
    (hc : cs[i]? = some c) (r : Nat) (hr : r < 4) :
    (cs.flatMap peerLines)[4 * i + r]? = (peerLines c)[r]? := by
  induction cs generalizing i with
  | nil => simp at hc
  | cons d rest ih =>
    cases i with
    | zero =>
      have hd : d = c := by simpa using hc
      rw [List.flatMap_cons]
      have hlen : r < (peerLines d).length := by
        simp [peerLines]
        omega
      rw [Nat.mul_zero, Nat.zero_add, List.getElem?_append_left hlen, hd]
    | succ j =>
      have hrest : rest[j]? = some c := by simpa using hc
      rw [List.flatMap_cons]
      have hlen : (peerLines d).length ≤ 4 * (j + 1) + r := by
        simp [peerLines]
        omega
      rw [List.getElem?_append_right hlen]
      have hidx : 4 * (j + 1) + r - (peerLines d).length = 4 * j + r := by
        simp [peerLines]
        omega
      rw [hidx]
      exact ih j hrest

/-- C7: a gateway config with clients attached (in order) renders the
`[Interface]` block once, first, followed by exactly one `[Peer]` block per
client, in attachment order, each carrying that client's public key and its
address with a `/32` suffix; a client config renders exactly one `[Peer]`
block carrying its gateway's current public key and the gateway's endpoint
with the listen port. -/
theorem config_rendering_spec (g : GatewayConfig) (cs : List ClientConfig)
    (c : ClientConfig) :
    (GatewayConfig.to_string_lines (GatewayConfig.set_clients g cs)
      = GatewayConfig.interfaceLines g ++ cs.flatMap peerLines) ∧
    ((GatewayConfig.to_string_lines (GatewayConfig.set_clients g cs))[0]?
      = some "[Interface]") ∧
    ((GatewayConfig.to_string_lines (GatewayConfig.set_clients g cs)).count
      "[Interface]" = 1) ∧
    ((GatewayConfig.to_string_lines (GatewayConfig.set_clients g cs)).count
      "[Peer]" = cs.length) ∧
    (∀ i c2, cs[i]? = some c2 →
      (GatewayConfig.to_string_lines (GatewayConfig.set_clients g cs))[7 + 4 * i]?
        = some "[Peer]" ∧
      (GatewayConfig.to_string_lines (GatewayConfig.set_clients g cs))[7 + 4 * i + 1]?
        = some ("PublicKey = " ++ c2.publicKey) ∧
      (GatewayConfig.to_string_lines (GatewayConfig.set_clients g cs))[7 + 4 * i + 2]?
        = some ("AllowedIPs = " ++ c2.address ++ "/32")) ∧
    ((ClientConfig.to_string_lines c g).count "[Peer]" = 1) ∧
    ((ClientConfig.to_string_lines c g)[4]? = some "[Peer]") ∧
    ((ClientConfig.to_string_lines c g)[5]? = some ("PublicKey = " ++ g.publicKey)) ∧
    ((ClientConfig.to_string_lines c g)[6]?
      = some ("Endpoint = " ++ g.endpoint ++ ":" ++ Nat.repr DEFAULT_ENDPOINT_PORT)) := by
  have hlines : GatewayConfig.to_string_lines (GatewayConfig.set_clients g cs)
      = GatewayConfig.interfaceLines g ++ cs.flatMap peerLines := by
    rw [GatewayConfig.to_string_lines]
    have : (GatewayConfig.set_clients g cs).clients = cs := rfl
    rw [this, gateway_lines_foldl]
    rfl
  have hifacelen : (GatewayConfig.interfaceLines g).length = 7 := rfl
  refine ⟨hlines, ?_, ?_, ?_, ?_, ?_, ?_, ?_, ?_⟩
  · rw [hlines]
    have h0 : (0 : Nat) < (GatewayConfig.interfaceLines g).length := by
      rw [hifacelen]
      omega
    rw [List.getElem?_append_left h0]
    rfl
  · rw [hlines, List.count_append, count_iface_interfaceLines, count_iface_bind]
  · rw [hlines, List.count_append, count_peer_interfaceLines, count_peer_bind]
    omega
  · intro i c2 hc2
    have hbase : ∀ r, r < 4 →
        (GatewayConfig.to_string_lines (GatewayConfig.set_clients g cs))[7 + (4 * i + r)]?
          = (peerLines c2)[r]? := by
      intro r hr
      rw [hlines]
      have hge : (GatewayConfig.interfaceLines g).length ≤ 7 + (4 * i + r) := by
        rw [hifacelen]
        omega
      rw [List.getElem?_append_right hge]
      have hidx : 7 + (4 * i + r) - (GatewayConfig.interfaceLines g).length
          = 4 * i + r := by
        rw [hifacelen]
        omega
      rw [hidx]
      exact bind_peerLines_get cs i c2 hc2 r hr
    refine ⟨?_, ?_, ?_⟩
    · have := hbase 0 (by omega)
      simpa using this
    · have := hbase 1 (by omega)
      have hidx : 7 + (4 * i + 1) = 7 + 4 * i + 1 := by omega
      rw [hidx] at this
      simpa [peerLines] using this
    · have := hbase 2 (by omega)
      have hidx : 7 + (4 * i + 2) = 7 + 4 * i + 2 := by omega
      rw [hidx] at this
      simpa [peerLines] using this
  · have h1 : ("PrivateKey = " ++ c.privateKey) ≠ "[Peer]" :=
      append2_ne _ _ _ (by decide)
    have h2 : ("Address = " ++ c.address ++ "/32") ≠ "[Peer]" :=
      append3_ne_sum _ _ _ _ (by decide)
    have h3 : ("PublicKey = " ++ g.publicKey) ≠ "[Peer]" :=
      append2_ne _ _ _ (by decide)
    have h4 : ("Endpoint = " ++ g.endpoint ++ ":" ++ Nat.repr DEFAULT_ENDPOINT_PORT)
        ≠ "[Peer]" := append4_ne _ _ _ _ _ (by decide)
    simp [ClientConfig.to_string_lines, List.count_cons, h1, h2, h3, h4]
  · rfl
  · rfl
  · rfl

/-- C7 witness: a gateway with two attached clients; the second client's
peer block sits at lines 11-13 and carries its key and `/32` address. -/
theorem config_rendering_spec_witness :
    (GatewayConfig.to_string_lines (GatewayConfig.set_clients
        (mkGatewayConfig "192.0.2.1" "gpriv" "gpub" [])
        [{ address := "10.0.0.2", privateKey := "c1priv", publicKey := "c1pub" },
         { address := "10.0.0.3", privateKey := "c2priv", publicKey := "c2pub" }])).count
      "[Peer]" = 2 ∧
    (GatewayConfig.to_string_lines (GatewayConfig.set_clients
        (mkGatewayConfig "192.0.2.1" "gpriv" "gpub" [])
        [{ address := "10.0.0.2", privateKey := "c1priv", publicKey := "c1pub" },
         { address := "10.0.0.3", privateKey := "c2priv", publicKey := "c2pub" }]))[11]?
      = some "[Peer]" ∧
    (GatewayConfig.to_string_lines (GatewayConfig.set_clients
        (mkGatewayConfig "192.0.2.1" "gpriv" "gpub" [])
        [{ address := "10.0.0.2", privateKey := "c1priv", publicKey := "c1pub" },
         { address := "10.0.0.3", privateKey := "c2priv", publicKey := "c2pub" }]))[12]?
      = some ("PublicKey = " ++ "c2pub") := by
  have h := config_rendering_spec (mkGatewayConfig "192.0.2.1" "gpriv" "gpub" [])
    [{ address := "10.0.0.2", privateKey := "c1priv", publicKey := "c1pub" },
     { address := "10.0.0.3", privateKey := "c2priv", publicKey := "c2pub" }]
    { address := "10.0.0.2", privateKey := "c1priv", publicKey := "c1pub" }
  have hpk := h.2.2.2.2.1 1
    { address := "10.0.0.3", privateKey := "c2priv", publicKey := "c2pub" } (by decide)
  exact ⟨by rw [h.2.2.2.1]; rfl, by simpa using hpk.1, by simpa using hpk.2.1⟩

/-- C5: `WireguardGateway.stop` is idempotent: with no container handle
(including before any `start`) it changes nothing and issues no docker
command; with a running container it issues `stop` then `rm` and clears the
handle, so a second consecutive `stop` is a no-op. -/
theorem gateway_stop_idempotent (g : WireguardGateway) :
    (g.containerId = none → WireguardGateway.stop g = (g, [])) ∧
    (∀ cid, g.containerId = some cid →
      WireguardGateway.stop g
        = (⟨none⟩, [DockerCall.stop cid, DockerCall.rm cid])) ∧
    WireguardGateway.stop (WireguardGateway.stop g).1
      = ((WireguardGateway.stop g).1, []) := by
  refine ⟨?_, ?_, ?_⟩
  · intro h
    rw [WireguardGateway.stop, h]
  · intro cid h
    rw [WireguardGateway.stop, h]
  · cases g with
    | mk cidOpt =>
      cases cidOpt with
      | none => rfl
      | some cid => rfl

/-- C5 witness: stopping a gateway with no handle is a no-op, and stopping
twice from a running gateway issues nothing the second time. -/
theorem gateway_stop_idempotent_witness :
    WireguardGateway.stop ⟨none⟩ = (⟨none⟩, []) ∧
    WireguardGateway.stop ⟨some "cid0"⟩
      = (⟨none⟩, [DockerCall.stop "cid0", DockerCall.rm "cid0"]) ∧
    WireguardGateway.stop (WireguardGateway.stop ⟨some "cid0"⟩).1
      = ((WireguardGateway.stop ⟨some "cid0"⟩).1, []) := by
  refine ⟨?_, ?_, ?_⟩
  · exact (gateway_stop_idempotent ⟨none⟩).1 rfl
  · exact (gateway_stop_idempotent ⟨some "cid0"⟩).2.1 "cid0" rfl
  · exact (gateway_stop_idempotent ⟨some "cid0"⟩).2.2

/-- C4: after a successful `start`, the `async with` scope invokes `stop`
exactly once on every exit path of the body — normal return, raised error,
or cancellation — so the gateway is always torn down (handle cleared,
exactly one docker `stop`), and the body's outcome propagates unchanged. -/
theorem gateway_scoped_stop_once {A : Type} (g : WireguardGateway)
    (newCid : String) (body : BodyOutcome A) :
    (withGateway g newCid body).1 = body ∧
    (withGateway g newCid body).2.1 = ⟨none⟩ ∧
    ((withGateway g newCid body).2.2.filter isStopCall).length = 1 ∧
    (withGateway g newCid body).2.2
      = [DockerCall.start newCid, DockerCall.inspect newCid,
         DockerCall.stop newCid, DockerCall.rm newCid] := by
  refine ⟨rfl, rfl, rfl, rfl⟩

/-- C9: loading the checkpoint returns all previously recorded outcome
records, in order, when the checkpoint file exists, and returns the empty
sequence (the function is total — no error) when no checkpoint file exists
yet. -/
theorem checkpoint_load_spec (decode : String → Outcome)
    (file : Option (List String)) :
    (file = none → loadCheckpoint decode file = []) ∧
    (∀ lines, file = some lines →
      (loadCheckpoint decode file).length = lines.length ∧
      ∀ i : Nat, (loadCheckpoint decode file)[i]? = (lines[i]?).map decode) := by
  refine ⟨?_, ?_⟩
  · intro h
    rw [h]
    rfl
  · intro lines h
    rw [h]
    refine ⟨by simp [loadCheckpoint], ?_⟩
    intro i
    simp [loadCheckpoint]

/-- C9 witness: a two-line checkpoint file loads both records in order; a
missing file loads the empty sequence. -/
theorem checkpoint_load_spec_witness :
    loadCheckpoint (fun s => { url := s, version := "A", success := true }) none
      = [] ∧
    (loadCheckpoint (fun s => { url := s, version := "A", success := true })
        (some ["l1", "l2"])).length = 2 ∧
    (loadCheckpoint (fun s => { url := s, version := "A", success := true })
        (some ["l1", "l2"]))[0]?
      = some { url := "l1", version := "A", success := true } := by
  have h := checkpoint_load_spec
    (fun s => { url := s, version := "A", success := true }) none
  have h2 := checkpoint_load_spec
    (fun s => { url := s, version := "A", success := true }) (some ["l1", "l2"])
  refine ⟨h.1 rfl, ?_, ?_⟩
  · exact (h2.2 ["l1", "l2"] rfl).1
  · have := (h2.2 ["l1", "l2"] rfl).2 0
    rw [this]
    rfl

theorem filterUrls_eq_filter (port : String → Option Nat) (urls : List String) :
    filterUrls port urls = urls.filter (fun u => (port u).isNone) := by
  induction urls with
  | nil => rfl
  | cons u rest ih =>
    rw [filterUrls]
    cases h : port u with
    | none =>
      have hfc : List.filter (fun u => (port u).isNone) (u :: rest)
          = u :: List.filter (fun u => (port u).isNone) rest :=
        List.filter_cons_of_pos (by simp [h])
      rw [hfc, ih]
    | some p =>
      have hfc : List.filter (fun u => (port u).isNone) (u :: rest)
          = List.filter (fun u => (port u).isNone) rest :=
        List.filter_cons_of_neg (by simp [h])
      rw [hfc, ih]

theorem runBatches_calls (rurls : List String) (bc : Ctr)
    (oracle : Nat → List Outcome) (rounds : List Nat) (cp : List Outcome) :
    (runBatches rurls bc oracle rounds cp).1
      = rounds.map (fun _ => { urls := rurls, ctr := bc }) := by
  induction rounds generalizing cp with
  | nil => rfl
  | cons r rest ih =>
    rw [runBatches, List.map_cons]
    rw [ih (cp ++ oracle r)]

theorem map_range_const {A : Type} (n : Nat) (x : A) :
    (List.range n).map (fun _ => x) = List.replicate n x := by
  induction n with
  | zero => rfl
  | succ m ih =>
    rw [List.range_succ, List.map_append, ih, List.map_cons, List.map_nil,
      List.replicate_succ']

theorem run_eq_of_empty_batch (port : String → Option Nat) (urls : List String)
    (vc : Ctr) (ma n : Nat) (path : String) (cp0 : List Outcome)
    (oracle : Nat → List Outcome)
    (hB : batch (filter_by_checkpoint (filterUrls port urls) cp0 vc ma) n = []) :
    BrowserPeer.run port urls vc ma n path cp0 oracle
      = { configPushed := false, collects := [], checkpoint := cp0,
          result := path } := by
  rw [BrowserPeer.run]
  simp only [hB]
  rfl

theorem run_eq_of_nonempty_batch (port : String → Option Nat) (urls : List String)
    (vc : Ctr) (ma n : Nat) (path : String) (cp0 : List Outcome)
    (oracle : Nat → List Outcome)
    (hB : batch (filter_by_checkpoint (filterUrls port urls) cp0 vc ma) n ≠ []) :
    (BrowserPeer.run port urls vc ma n path cp0 oracle).configPushed = true ∧
    (BrowserPeer.run port urls vc ma n path cp0 oracle).collects
      = List.replicate n
          { urls := (filter_by_checkpoint (filterUrls port urls) cp0 vc ma).map
              Prod.fst,
            ctr := batch (filter_by_checkpoint (filterUrls port urls) cp0 vc ma) n } := by
  have hBe : (batch (filter_by_checkpoint (filterUrls port urls) cp0 vc ma) n).isEmpty
      = false := by
    cases h : batch (filter_by_checkpoint (filterUrls port urls) cp0 vc ma) n with
    | nil => exact absurd h hB
    | cons a l => rfl
  refine ⟨?_, ?_⟩
  · rw [BrowserPeer.run]
    simp only [hBe, Bool.false_eq_true, if_false]
  · rw [BrowserPeer.run]
    simp only [hBe, Bool.false_eq_true, if_false]
    show (runBatches _ _ oracle (List.range n) cp0).1 = _
    rw [runBatches_calls, map_range_const]

theorem filter_by_checkpoint_keys (urls : List String) (cp : List Outcome)
    (vc : Ctr) (ma : Nat) :
    ∀ x ∈ (filter_by_checkpoint urls cp vc ma).map Prod.fst, x ∈ urls := by
  intro x hx
  rw [List.mem_map] at hx
  obtain ⟨p, hp, hpx⟩ := hx
  rw [filter_by_checkpoint, List.mem_filterMap] at hp
  obtain ⟨u, hu, hup⟩ := hp
  set plan : Ctr := vc.filterMap (fun q =>
    let outs := cp.filter (fun o => o.url == u && o.version == q.1)
    let succ : Int := (outs.filter (fun o => o.success)).length
    let trailFail := (outs.reverse.takeWhile (fun o => !o.success)).length
    let rem := if ma ≤ trailFail then 0 else q.2 - succ
    if 0 < rem then some (q.1, rem) else none) with hplan
  by_cases he : plan.isEmpty
  · rw [if_pos he] at hup
    cases hup
  · rw [if_neg he] at hup
    have : p = (u, plan) := by
      cases hup
      rfl
    rw [this] at hpx
    rw [← hpx]
    exact hu

/-- C10: at `CollectionAgent` construction every work-item URL whose parsed
form contains an explicit port is silently dropped, so the stored URL list
is exactly the input URLs without a port, in their original relative order;
dropped URLs never reach any collection call (and hence are never
checkpointed).  `port` abstracts `urllib.parse.urlparse(url).port`. -/
theorem filter_urls_spec (port : String → Option Nat) (urls : List String) :
    (filterUrls port urls = urls.filter (fun u => (port u).isNone)) ∧
    (∀ u ∈ urls, (port u).isSome = true → u ∉ filterUrls port urls) ∧
    (∀ vc ma n path cp0 oracle call,
      call ∈ (BrowserPeer.run port urls vc ma n path cp0 oracle).collects →
      ∀ u ∈ CollectCall.urls call, u ∈ filterUrls port urls) := by
  refine ⟨filterUrls_eq_filter port urls, ?_, ?_⟩
  · intro u hu hsome hmem
    rw [filterUrls_eq_filter] at hmem
    rw [List.mem_filter] at hmem
    have hnone := hmem.2
    rw [Option.isSome_iff_exists] at hsome
    obtain ⟨v, hv⟩ := hsome
    rw [hv] at hnone
    cases hnone
  · intro vc ma n path cp0 oracle call hcall u hu
    by_cases hB : batch (filter_by_checkpoint (filterUrls port urls) cp0 vc ma) n = []
    · rw [run_eq_of_empty_batch port urls vc ma n path cp0 oracle hB] at hcall
      cases hcall
    · have h := (run_eq_of_nonempty_batch port urls vc ma n path cp0 oracle hB).2
      rw [h] at hcall
      have hcall2 := List.eq_of_mem_replicate hcall
      rw [hcall2] at hu
      exact filter_by_checkpoint_keys (filterUrls port urls) cp0 vc ma u hu

/-- C10 witness: of three URLs the one with an explicit port is dropped,
the others are kept in order, and the single collection round only ever
receives kept URLs. -/
theorem filter_urls_spec_witness :
    filterUrls
        (fun u => if u = "https://b.com:8443/x" then some 8443 else none)
        ["https://a.com", "https://b.com:8443/x", "https://c.com"]
      = ["https://a.com", "https://c.com"] ∧
    ("https://b.com:8443/x" ∉ filterUrls
        (fun u => if u = "https://b.com:8443/x" then some 8443 else none)
        ["https://a.com", "https://b.com:8443/x", "https://c.com"]) := by
  have h := filter_urls_spec
    (fun u => if u = "https://b.com:8443/x" then some 8443 else none)
    ["https://a.com", "https://b.com:8443/x", "https://c.com"]
  refine ⟨by rw [h.1]; rfl, ?_⟩
  exact h.2.1 "https://b.com:8443/x" (by decide) (by decide)

/-- C6: an agent whose recovered Remaining yields an empty batch request at
the start of `run()` returns the checkpoint path immediately: the VPN
config is not pushed and the external collector is never invoked. -/
theorem run_idempotent_when_done (port : String → Option Nat)
    (urls : List String) (vc : Ctr) (ma n : Nat) (path : String)
    (cp0 : List Outcome) (oracle : Nat → List Outcome)
    (hB : batch (filter_by_checkpoint (filterUrls port urls) cp0 vc ma) n = []) :
    (BrowserPeer.run port urls vc ma n path cp0 oracle).configPushed = false ∧
    (BrowserPeer.run port urls vc ma n path cp0 oracle).collects = [] ∧
    (BrowserPeer.run port urls vc ma n path cp0 oracle).result = path ∧
    (BrowserPeer.run port urls vc ma n path cp0 oracle).checkpoint = cp0 := by
  rw [run_eq_of_empty_batch port urls vc ma n path cp0 oracle hB]
  exact ⟨rfl, rfl, rfl, rfl⟩

/-- C6 witness: a fully-checkpointed agent (both requested repetitions of
`A` already collected) does no work on restart. -/
theorem run_idempotent_when_done_witness :
    (BrowserPeer.run (fun _ => none) ["u"] exVersionCtr 3 2 "peer.state"
        [{ url := "u", version := "A", success := true },
         { url := "u", version := "A", success := true }] exOracle).configPushed
      = false ∧
    (BrowserPeer.run (fun _ => none) ["u"] exVersionCtr 3 2 "peer.state"
        [{ url := "u", version := "A", success := true },
         { url := "u", version := "A", success := true }] exOracle).collects
      = [] ∧
    (BrowserPeer.run (fun _ => none) ["u"] exVersionCtr 3 2 "peer.state"
        [{ url := "u", version := "A", success := true },
         { url := "u", version := "A", success := true }] exOracle).result
      = "peer.state" := by
  have h := run_idempotent_when_done (fun _ => none) ["u"] exVersionCtr 3 2
    "peer.state"
    [{ url := "u", version := "A", success := true },
     { url := "u", version := "A", success := true }] exOracle (by decide)
  exact ⟨h.1, h.2.1, h.2.2.1⟩

/-- C2 counterexample: with one URL, two requested repetitions of version
`A`, `n_batches = 2` and a first round that collects both repetitions
successfully, the code still passes the initial batch counter `{A: 1}` to
the second round, whereas recomputing Remaining from the checkpoint after
round one (as the claim states) yields the empty request. -/
theorem run_recompute_counterexample :
    ((BrowserPeer.run (fun _ => none) ["u"] exVersionCtr 3 2 "peer.state" []
        exOracle).collects.map (fun call => CollectCall.ctr call)
      = [[("A", 1)], [("A", 1)]]) ∧
    (roundRequestsRecomputed ["u"] exVersionCtr 3 2 exOracle (List.range 2) []
      = [[("A", 1)], []]) ∧
    ((BrowserPeer.run (fun _ => none) ["u"] exVersionCtr 3 2 "peer.state" []
        exOracle).collects.map (fun call => CollectCall.ctr call)
      ≠ roundRequestsRecomputed ["u"] exVersionCtr 3 2 exOracle
          (List.range 2) []) := by
  refine ⟨by decide, by decide, by decide⟩

/-- C2 (amended): `BrowserPeer.run` computes Remaining and the batch
request once, before the loop; all `n_batches` rounds invoke the collector
with that same URL list and batch counter, regardless of the outcomes
appended to the checkpoint during earlier rounds. -/
theorem run_batch_requests_constant (port : String → Option Nat)
    (urls : List String) (vc : Ctr) (ma n : Nat) (path : String)
    (cp0 : List Outcome) (oracle oracle2 : Nat → List Outcome)
    (hB : batch (filter_by_checkpoint (filterUrls port urls) cp0 vc ma) n ≠ []) :
    ((BrowserPeer.run port urls vc ma n path cp0 oracle).collects
      = List.replicate n
          { urls := (filter_by_checkpoint (filterUrls port urls) cp0 vc ma).map
              Prod.fst,
            ctr := batch (filter_by_checkpoint (filterUrls port urls) cp0 vc ma)
              n }) ∧
    ((BrowserPeer.run port urls vc ma n path cp0 oracle).collects
      = (BrowserPeer.run port urls vc ma n path cp0 oracle2).collects) := by
  have h1 := (run_eq_of_nonempty_batch port urls vc ma n path cp0 oracle hB).2
  have h2 := (run_eq_of_nonempty_batch port urls vc ma n path cp0 oracle2 hB).2
  exact ⟨h1, by rw [h1, h2]⟩

/-- C2 amended witness: at the counterexample input both rounds use the
same request `{A: 1}` and the collector oracle has no influence on any
round's request. -/
theorem run_batch_requests_constant_witness :
    ((BrowserPeer.run (fun _ => none) ["u"] exVersionCtr 3 2 "peer.state" []
        exOracle).collects
      = List.replicate 2
          { urls := ["u"], ctr := [("A", 1)] }) ∧
    ((BrowserPeer.run (fun _ => none) ["u"] exVersionCtr 3 2 "peer.state" []
        exOracle).collects
      = (BrowserPeer.run (fun _ => none) ["u"] exVersionCtr 3 2 "peer.state" []
          (fun _ => [])).collects) := by
  have h := run_batch_requests_constant (fun _ => none) ["u"] exVersionCtr 3 2
    "peer.state" [] exOracle (fun _ => []) (by decide)
  refine ⟨?_, h.2⟩
  rw [h.1]
  rfl

theorem toDigitsCore_append (b fuel n : Nat) (ds : List Char) :
    Nat.toDigitsCore b fuel n ds = Nat.toDigitsCore b fuel n [] ++ ds := by
  induction fuel generalizing n ds with
  | zero => rfl
  | succ f ih =>
    by_cases h : n / b = 0
    · simp [Nat.toDigitsCore, h]
    · simp only [Nat.toDigitsCore, h, if_false]
      rw [ih (n / b) (Nat.digitChar (n % b) :: ds), ih (n / b) [Nat.digitChar (n % b)],
        List.append_assoc]
      rfl

theorem digitsVal_append_digit (l : List Char) (c : Char) :
    digitsVal (l ++ [c]) = digitsVal l * 10 + digitVal c := by
  rw [digitsVal, List.foldl_append]
  rfl

theorem digitVal_digitChar : ∀ m, m < 10 → digitVal (Nat.digitChar m) = m := by
  decide

theorem digitsVal_toDigitsCore (fuel n : Nat) (h : n < fuel) :
    digitsVal (Nat.toDigitsCore 10 fuel n []) = n := by
  induction fuel generalizing n with
  | zero => omega
  | succ f ih =>
    by_cases h0 : n / 10 = 0
    · have hn : n < 10 := by omega
      simp only [Nat.toDigitsCore, h0, if_true]
      show 0 * 10 + digitVal (Nat.digitChar (n % 10)) = n
      rw [digitVal_digitChar (n % 10) (Nat.mod_lt n (by omega))]
      omega
    · simp only [Nat.toDigitsCore, h0, if_false]
      rw [toDigitsCore_append 10 f (n / 10) [Nat.digitChar (n % 10)],
        digitsVal_append_digit]
      have hdiv : n / 10 < f := by omega
      rw [ih (n / 10) hdiv, digitVal_digitChar (n % 10) (Nat.mod_lt n (by omega))]
      omega

theorem string_data_inj {s t : String} (h : s.data = t.data) : s = t := by
  cases s with
  | mk ds =>
    cases t with
    | mk dt =>
      cases h
      rfl

theorem nat_repr_injective : Function.Injective Nat.repr := by
  intro m n h
  have hdata : Nat.toDigitsCore 10 (m + 1) m [] = Nat.toDigitsCore 10 (n + 1) n [] := by
    have h2 := congrArg String.data h
    exact h2
  have hm := digitsVal_toDigitsCore (m + 1) m (by omega)
  have hn := digitsVal_toDigitsCore (n + 1) n (by omega)
  rw [hdata] at hm
  omega

theorem mkAddress_injective :
    Function.Injective (fun i : Nat => "10.0.0." ++ Nat.repr (i + 2)) := by
  intro i j h
  simp only at h
  have hdata := congrArg String.data h
  rw [String.data_append, String.data_append] at hdata
  have hrepr := List.append_cancel_left hdata
  have := nat_repr_injective (string_data_inj hrepr)
  omega

theorem everyKth_getElem {A : Type} (k : Nat) (hk : 1 ≤ k) (l : List A) (m : Nat) :
    (everyKth k l)[m]? = l[m * k]? := by
  induction m generalizing l with
  | zero =>
    cases l with
    | nil => simp [everyKth]
    | cons x xs => simp [everyKth]
  | succ j ih =>
    cases l with
    | nil => simp [everyKth]
    | cons x xs =>
      rw [everyKth]
      have hL : (x :: everyKth k (xs.drop (k - 1)))[j + 1]?
          = (everyKth k (xs.drop (k - 1)))[j]? := by
        simp
      rw [hL, ih (xs.drop (k - 1)), List.getElem?_drop]
      have hidx : (j + 1) * k = ((k - 1) + j * k) + 1 := by
        rw [Nat.succ_mul]
        generalize j * k = A
        omega
      rw [hidx]
      simp

theorem sliceStep_getElem {A : Type} (l : List A) (i k m : Nat) (hk : 1 ≤ k) :
    (sliceStep l i k)[m]? = l[i + m * k]? := by
  rw [sliceStep, everyKth_getElem k hk, List.getElem?_drop]

theorem mkClients_getElem (urls : List String) (ns : List String) (i : Nat)
    (hi : i < ns.length) :
    ∃ node, ns[i]? = some node ∧
      (mkClients urls ns)[i]? = some
        { address := "10.0.0." ++ Nat.repr (i + 2),
          urls := sliceStep urls i ns.length,
          node := node } := by
  cases hn : ns[i]? with
  | none =>
    rw [List.getElem?_eq_none_iff] at hn
    omega
  | some node =>
    refine ⟨node, rfl, ?_⟩
    rw [mkClients, List.getElem?_map, List.getElem?_enum, hn]
    rfl

/-- C8: the coordinator creates exactly one agent per client host,
partitions the work items round-robin (item `j` goes to the agent on host
`j mod k` at position `j div k` of its shard), and assigns every agent an
address distinct from every other agent's. -/
theorem partition_round_robin_spec (urls : List String) (ns : List String)
    (hk : 0 < ns.length) :
    ((mkClients urls ns).length = ns.length) ∧
    (∀ j : Nat, j < urls.length → ∃ c,
      (mkClients urls ns)[j % ns.length]? = some c ∧
      (BrowserPeerInit.urls c)[j / ns.length]? = urls[j]?) ∧
    ((mkClients urls ns).map BrowserPeerInit.address).Nodup := by
  refine ⟨?_, ?_, ?_⟩
  · rw [mkClients, List.length_map, List.enum_length]
  · intro j hj
    have hjk : j % ns.length < ns.length := Nat.mod_lt j hk
    obtain ⟨node, hnode, hclients⟩ := mkClients_getElem urls ns (j % ns.length) hjk
    refine ⟨_, hclients, ?_⟩
    show (sliceStep urls (j % ns.length) ns.length)[j / ns.length]? = urls[j]?
    rw [sliceStep_getElem urls _ _ _ hk]
    rw [Nat.mod_add_div' j ns.length]
  · rw [mkClients, List.map_map]
    have hcomp : (BrowserPeerInit.address ∘ fun p : Nat × String =>
        ({ address := "10.0.0." ++ Nat.repr (p.1 + 2),
           urls := sliceStep urls p.1 ns.length,
           node := p.2 } : BrowserPeerInit))
        = (fun i : Nat => "10.0.0." ++ Nat.repr (i + 2)) ∘ Prod.fst := rfl
    rw [hcomp, ← List.map_map, List.enum_map_fst]
    exact (List.nodup_range ns.length).map mkAddress_injective

/-- C8 witness: five work items over two hosts; item 3 goes to agent
`3 mod 2 = 1` at shard position `3 div 2 = 1`, and the two agents' addresses
differ. -/
theorem partition_round_robin_spec_witness :
    (mkClients ["u0", "u1", "u2", "u3", "u4"] ["n0", "n1"]).length = 2 ∧
    (∃ c, (mkClients ["u0", "u1", "u2", "u3", "u4"] ["n0", "n1"])[1]? = some c ∧
      (BrowserPeerInit.urls c)[1]? = some "u3") ∧
    ((mkClients ["u0", "u1", "u2", "u3", "u4"] ["n0", "n1"]).map
      BrowserPeerInit.address).Nodup := by
  have h := partition_round_robin_spec ["u0", "u1", "u2", "u3", "u4"]
    ["n0", "n1"] (by decide)
  refine ⟨h.1, ?_, h.2.2⟩
  have h3 := h.2.1 3 (by decide)
  obtain ⟨c, hc1, hc2⟩ := h3
  exact ⟨c, hc1, hc2⟩

theorem earliestFailure_none {E P : Type} (agents : List (AgentSpec E P))
    (h : earliestFailure agents = none) :
    ∀ a ∈ agents, ∀ e2, AgentSpec.outcome a ≠ Except.error e2 := by
  induction agents with
  | nil =>
    intro a ha
    cases ha
  | cons a rest ih =>
    intro b hb e2 hbo
    cases houtcome : AgentSpec.outcome a with
    | error e0 =>
      cases hr : earliestFailure rest with
      | some pair =>
        simp only [earliestFailure, houtcome, hr] at h
        by_cases htf : pair.1 < AgentSpec.finish a
        · rw [if_pos htf] at h
          cases h
        · rw [if_neg htf] at h
          cases h
      | none =>
        simp only [earliestFailure, houtcome, hr] at h
        cases h
    | ok p =>
      simp only [earliestFailure, houtcome] at h
      rcases List.mem_cons.mp hb with hba | hbr
      · rw [hba] at hbo
        rw [houtcome] at hbo
        cases hbo
      · exact ih h b hbr e2 hbo

theorem earliestFailure_mem {E P : Type} (agents : List (AgentSpec E P))
    (tf : Nat) (e : E) (h : earliestFailure agents = some (tf, e)) :
    ∃ a ∈ agents, AgentSpec.outcome a = Except.error e ∧
      AgentSpec.finish a = tf := by
  induction agents generalizing tf e with
  | nil => simp [earliestFailure] at h
  | cons a rest ih =>
    cases houtcome : AgentSpec.outcome a with
    | error e0 =>
      cases hr : earliestFailure rest with
      | some pair =>
        obtain ⟨tf2, e2⟩ := pair
        simp only [earliestFailure, houtcome, hr] at h
        by_cases htf : tf2 < AgentSpec.finish a
        · rw [if_pos htf] at h
          have h2 := Option.some.inj h
          have htf2 : tf2 = tf := congrArg Prod.fst h2
          have he2 : e2 = e := congrArg Prod.snd h2
          rw [htf2, he2] at hr
          obtain ⟨b, hb, hbo, hbf⟩ := ih tf e hr
          exact ⟨b, List.mem_cons_of_mem a hb, hbo, hbf⟩
        · rw [if_neg htf] at h
          have h2 := Option.some.inj h
          have hfa : AgentSpec.finish a = tf := congrArg Prod.fst h2
          have he0 : e0 = e := congrArg Prod.snd h2
          exact ⟨a, List.mem_cons_self a rest, he0 ▸ houtcome, hfa⟩
      | none =>
        simp only [earliestFailure, houtcome, hr] at h
        have h2 := Option.some.inj h
        have hfa : AgentSpec.finish a = tf := congrArg Prod.fst h2
        have he0 : e0 = e := congrArg Prod.snd h2
        exact ⟨a, List.mem_cons_self a rest, he0 ▸ houtcome, hfa⟩
    | ok p =>
      simp only [earliestFailure, houtcome] at h
      obtain ⟨b, hb, hbo, hbf⟩ := ih tf e h
      exact ⟨b, List.mem_cons_of_mem a hb, hbo, hbf⟩

theorem earliestFailure_min {E P : Type} (agents : List (AgentSpec E P))
    (tf : Nat) (e : E) (h : earliestFailure agents = some (tf, e)) :
    ∀ a ∈ agents, ∀ e2, AgentSpec.outcome a = Except.error e2 →
      tf ≤ AgentSpec.finish a := by
  induction agents generalizing tf e with
  | nil =>
    intro a ha
    cases ha
  | cons a rest ih =>
    intro b hb e2 hbo
    cases houtcome : AgentSpec.outcome a with
    | error e0 =>
      cases hr : earliestFailure rest with
      | some pair =>
        obtain ⟨tf2, e3⟩ := pair
        simp only [earliestFailure, houtcome, hr] at h
        by_cases htf : tf2 < AgentSpec.finish a
        · rw [if_pos htf] at h
          have h2 := Option.some.inj h
          have htf2 : tf2 = tf := congrArg Prod.fst h2
          have he3 : e3 = e := congrArg Prod.snd h2
          rcases List.mem_cons.mp hb with hba | hbr
          · rw [hba]
            omega
          · rw [htf2, he3] at hr
            exact ih tf e hr b hbr e2 hbo
        · rw [if_neg htf] at h
          have h2 := Option.some.inj h
          have hfa : AgentSpec.finish a = tf := congrArg Prod.fst h2
          rcases List.mem_cons.mp hb with hba | hbr
          · rw [hba]
            omega
          · have hrest := ih tf2 e3 hr b hbr e2 hbo
            omega
      | none =>
        simp only [earliestFailure, houtcome, hr] at h
        have h2 := Option.some.inj h
        have hfa : AgentSpec.finish a = tf := congrArg Prod.fst h2
        rcases List.mem_cons.mp hb with hba | hbr
        · rw [hba]
          omega
        · exact absurd hbo (earliestFailure_none rest hr b hbr e2)
    | ok p =>
      simp only [earliestFailure, houtcome] at h
      rcases List.mem_cons.mp hb with hba | hbr
      · rw [hba] at hbo
        rw [houtcome] at hbo
        cases hbo
      · exact ih tf e h b hbr e2 hbo

theorem finalsAt_length {E P : Type} (tf : Nat) (agents : List (AgentSpec E P)) :
    (finalsAt tf agents).length = agents.length := by
  rw [finalsAt, List.length_map]

theorem finalsAt_cancelled {E P : Type} (tf : Nat)
    (agents : List (AgentSpec E P)) (i : Nat) (a : AgentSpec E P)
    (ha : agents[i]? = some a) (hflight : tf < AgentSpec.finish a) :
    (finalsAt tf agents)[i]? = some TaskFinal.cancelled := by
  rw [finalsAt, List.getElem?_map, ha]
  show some (if AgentSpec.finish a ≤ tf then
      (match AgentSpec.outcome a with
       | Except.ok p => TaskFinal.ok p
       | Except.error e => TaskFinal.failed e)
    else TaskFinal.cancelled) = some TaskFinal.cancelled
  rw [if_neg (by omega)]

/-- C3: when some agent's `run()` raises, the coordinator re-raises the
original (earliest) exception after cancelling all agents still in flight
and awaiting every task while collecting (not re-raising) its outcome; the
gateway's `stop` still executes exactly once on this failure path. -/
theorem coordinator_failure_spec {E P : Type} (g : WireguardGateway)
    (newCid : String) (agents : List (AgentSpec E P)) (tf : Nat) (e : E)
    (hfail : earliestFailure agents = some (tf, e)) :
    (TraceCollectionExperiment.run g newCid agents).result = Except.error e ∧
    (∃ a ∈ agents, AgentSpec.outcome a = Except.error e ∧
      AgentSpec.finish a = tf) ∧
    (∀ a ∈ agents, ∀ e2, AgentSpec.outcome a = Except.error e2 →
      tf ≤ AgentSpec.finish a) ∧
    (TraceCollectionExperiment.run g newCid agents).finals.length
      = agents.length ∧
    (∀ i : Nat, ∀ a, agents[i]? = some a → tf < AgentSpec.finish a →
      (TraceCollectionExperiment.run g newCid agents).finals[i]?
        = some TaskFinal.cancelled) ∧
    ((TraceCollectionExperiment.run g newCid agents).calls.filter
      isStopCall).length = 1 ∧
    (TraceCollectionExperiment.run g newCid agents).gateway = ⟨none⟩ := by
  have hrun : TraceCollectionExperiment.run g newCid agents
      = { result := Except.error e, finals := finalsAt tf agents,
          gateway := ⟨none⟩,
          calls := [DockerCall.start newCid, DockerCall.inspect newCid,
                    DockerCall.stop newCid, DockerCall.rm newCid] } := by
    rw [TraceCollectionExperiment.run, hfail]
    rfl
  refine ⟨?_, earliestFailure_mem agents tf e hfail,
    earliestFailure_min agents tf e hfail, ?_, ?_, ?_, ?_⟩
  · rw [hrun]
  · rw [hrun]
    exact finalsAt_length tf agents
  · intro i a ha hflight
    rw [hrun]
    exact finalsAt_cancelled tf agents i a ha hflight
  · rw [hrun]
    rfl
  · rw [hrun]

/-- C3 witness: three agents; the second raises at time 2, the first
finished at time 1, the third (still in flight until time 5) is cancelled;
the coordinator re-raises the original error and still stops the gateway. -/
theorem coordinator_failure_spec_witness :
    (TraceCollectionExperiment.run ⟨none⟩ "cid0"
        [{ outcome := Except.ok "p0", finish := 1 },
         { outcome := Except.error "boom", finish := 2 },
         { outcome := Except.ok "p2", finish := 5 }]).result
      = Except.error "boom" ∧
    (TraceCollectionExperiment.run ⟨none⟩ "cid0"
        [{ outcome := Except.ok "p0", finish := 1 },
         { outcome := Except.error "boom", finish := 2 },
         { outcome := (Except.ok "p2" : Except String String), finish := 5 }]).finals[2]?
      = some TaskFinal.cancelled ∧
    ((TraceCollectionExperiment.run ⟨none⟩ "cid0"
        [{ outcome := Except.ok "p0", finish := 1 },
         { outcome := Except.error "boom", finish := 2 },
         { outcome := Except.ok "p2", finish := 5 }]).calls.filter
      isStopCall).length = 1 ∧
    (TraceCollectionExperiment.run ⟨none⟩ "cid0"
        [{ outcome := Except.ok "p0", finish := 1 },
         { outcome := Except.error "boom", finish := 2 },
         { outcome := Except.ok "p2", finish := 5 }]).gateway = ⟨none⟩ := by
  have h := coordinator_failure_spec (E := String) (P := String) ⟨none⟩ "cid0"
    [{ outcome := Except.ok "p0", finish := 1 },
     { outcome := Except.error "boom", finish := 2 },
     { outcome := Except.ok "p2", finish := 5 }] 2 "boom" rfl
  refine ⟨h.1, ?_, h.2.2.2.2.2.1, h.2.2.2.2.2.2⟩
  exact h.2.2.2.2.1 2 { outcome := Except.ok "p2", finish := 5 } rfl (by decide)
